import Mathlib

/-!
Verification of the poseidon377 parameter-generation core
(Zondax/poseidon377): finite-field square-matrix algebra
(determinant / cofactors / inverse), dynamic matrix operations
(dot product, matrix multiplication), deterministic round-constant
generation (ArcMatrix), the optimized round-constant transform
(OptimizedArcMatrix) and its output-equivalence with the
un-optimized permutation schedule, and the const-generic
ArcMatrix / OptimizedArcMatrix wrappers.

The square-matrix algebra (poseidon-paramgen `matrix/square.rs`,
`matrix/base.rs`), the const-generic base matrix
(poseidon-parameters `matrix.rs`) and the optimized-constant
transform are not present in the provided sources; definitions for
those parts are modelled from the specification, as marked on each
definition.  Everything else is translated directly from the Rust
sources.
-/

namespace PoseidonVerify

/-- The modulus of the decaf377 base field `Fq`
(the BLS12-377 scalar field), the prime field over which the
poseidon377 instantiation works. -/
def fqPrime : ℕ :=
  8444461749428370424248824938781546531375899335154063827935233455917409239041

section SquareAlgebra

variable {F : Type} [CommRing F]

/-- Modelled from the spec: `SquareMatrix::determinant()`
(poseidon-paramgen `matrix/square.rs` is absent from the sources) —
exact recursive cofactor expansion: base case N=1 returns the sole
element, N=2 returns `ad - bc`, and N≥3 expands along row 0 with
alternating sign, recursing into the (N−1)×(N−1) minors obtained by
deleting row 0 and each column. -/
def determinant : (n : ℕ) → Matrix (Fin n) (Fin n) F → F
  | 0, _ => 1
  | 1, A => A 0 0
  | 2, A => A 0 0 * A 1 1 - A 0 1 * A 1 0
  | n+3, A =>
      ∑ j : Fin (n+3),
        (-1 : F) ^ (j : ℕ) * A 0 j *
          determinant (n+2) (A.submatrix Fin.succ j.succAbove)

/-- Modelled from the spec: `SquareMatrix::cofactors()`
(poseidon-paramgen `matrix/square.rs` is absent from the sources) —
the same-shape matrix whose entry (i,j) is (−1)^(i+j) times the
determinant of the minor of `A` obtained by deleting row i and
column j. -/
def cofactors : (n : ℕ) → Matrix (Fin n) (Fin n) F → Matrix (Fin n) (Fin n) F
  | 0, A => A
  | m+1, A =>
      Matrix.of fun i j =>
        (-1 : F) ^ ((i : ℕ) + (j : ℕ)) *
          determinant m (A.submatrix i.succAbove j.succAbove)

/-- Modelled from the spec: `SquareMatrix::inverse()`
(poseidon-paramgen `matrix/square.rs` is absent from the sources) —
fails with a `SingularMatrixError` when the determinant is
field-zero, otherwise returns the transpose of the cofactor matrix
scaled by the multiplicative inverse of the determinant (the
classical adjugate formula). -/
def inverse {F : Type} [Field F] [DecidableEq F] (n : ℕ)
    (A : Matrix (Fin n) (Fin n) F) : Option (Matrix (Fin n) (Fin n) F) :=
  if determinant n A = 0 then none
  else some ((determinant n A)⁻¹ • (cofactors n A).transpose)

/-- The recursive cofactor-expansion determinant agrees with the
mathematical determinant. -/
theorem determinant_eq_det :
    ∀ (n : ℕ) (A : Matrix (Fin n) (Fin n) F), determinant n A = A.det
  | 0, A => by rw [determinant, Matrix.det_fin_zero]
  | 1, A => by rw [determinant, Matrix.det_fin_one]
  | 2, A => by rw [determinant, Matrix.det_fin_two]
  | n+3, A => by
      rw [determinant, Matrix.det_succ_row_zero]
      exact Finset.sum_congr rfl fun j _ => by
        rw [determinant_eq_det (n+2)]

/-- The transpose of the cofactor matrix is the adjugate. -/
theorem cofactors_transpose_eq_adjugate (m : ℕ)
    (A : Matrix (Fin (m+1)) (Fin (m+1)) F) :
    (cofactors (m+1) A).transpose = A.adjugate := by
  ext i j
  rw [Matrix.transpose_apply, cofactors, Matrix.of_apply,
    Matrix.adjugate_fin_succ_eq_det_submatrix, determinant_eq_det,
    Nat.add_comm (j : ℕ) (i : ℕ)]

/-- For any square matrix of positive size, the scaled transposed
cofactor matrix is a two-sided inverse whenever the determinant is
nonzero. -/
theorem adjugate_formula_inverse {F : Type} [Field F] (m : ℕ)
    (A : Matrix (Fin (m+1)) (Fin (m+1)) F) (h : determinant (m+1) A ≠ 0) :
    A * ((determinant (m+1) A)⁻¹ • (cofactors (m+1) A).transpose) = 1 ∧
      ((determinant (m+1) A)⁻¹ • (cofactors (m+1) A).transpose) * A = 1 := by
  rw [cofactors_transpose_eq_adjugate]
  rw [determinant_eq_det] at h ⊢
  constructor
  · rw [Matrix.mul_smul, Matrix.mul_adjugate, smul_smul,
      inv_mul_cancel₀ h, one_smul]
  · rw [Matrix.smul_mul, Matrix.adjugate_mul, smul_smul,
      inv_mul_cancel₀ h, one_smul]

end SquareAlgebra

instance : Fact (Nat.Prime 11) := ⟨by norm_num⟩

/-- C2: for every square matrix A of size m+1, `cofactors` returns a
same-shape matrix whose entry (i,j) equals (−1)^(i+j) times the
determinant of the minor of A obtained by deleting row i and column
j; and for the 2×2 matrix [[1,2],[3,4]] over the decaf377 field the
cofactor matrix is [[4,−3],[−2,1]]. -/
theorem cofactors_entry_and_fixture :
    (∀ (F : Type) [CommRing F] (m : ℕ)
        (A : Matrix (Fin (m+1)) (Fin (m+1)) F) (i j : Fin (m+1)),
        cofactors (m+1) A i j =
          (-1 : F) ^ ((i : ℕ) + (j : ℕ)) *
            (A.submatrix i.succAbove j.succAbove).det) ∧
      cofactors 2 (!![1, 2; 3, 4] : Matrix (Fin 2) (Fin 2) (ZMod fqPrime))
        = !![4, -3; -2, 1] := by
  constructor
  · intro F _ m A i j
    rw [cofactors, Matrix.of_apply, determinant_eq_det]
  · decide

/-- C3: for every invertible square matrix A of size N in {1..8}
over a prime field (invertible meaning its determinant is nonzero),
`inverse` succeeds and multiplying A by the returned matrix on
either side yields the identity matrix. -/
theorem inverse_two_sided (F : Type) [Field F] [DecidableEq F]
    (n : ℕ) (hn : 1 ≤ n ∧ n ≤ 8) (A : Matrix (Fin n) (Fin n) F)
    (hA : determinant n A ≠ 0) :
    ∃ B, inverse n A = some B ∧ A * B = 1 ∧ B * A = 1 := by
  obtain ⟨m, rfl⟩ : ∃ m, n = m + 1 :=
    ⟨n - 1, (Nat.succ_pred_eq_of_pos hn.1).symm⟩
  refine ⟨(determinant (m+1) A)⁻¹ • (cofactors (m+1) A).transpose, ?_, ?_, ?_⟩
  · rw [inverse, if_neg hA]
  · exact (adjugate_formula_inverse m A hA).1
  · exact (adjugate_formula_inverse m A hA).2

/-- Witness for C3: the concrete invertible 2×2 matrix [[1,2],[3,4]]
over Z_11 has a two-sided inverse computed by `inverse`. -/
theorem inverse_two_sided_witness :
    ∃ B, inverse 2 (!![1, 2; 3, 4] : Matrix (Fin 2) (Fin 2) (ZMod 11)) = some B ∧
      !![1, 2; 3, 4] * B = 1 ∧ B * !![1, 2; 3, 4] = 1 :=
  inverse_two_sided (ZMod 11) 2 (by decide) !![1, 2; 3, 4] (by decide)

/-- C4: `inverse` fails (returns `none`, modelling the
`SingularMatrixError`) exactly when the determinant is field-zero;
otherwise it returns precisely the transpose of the cofactor matrix
scaled by the multiplicative inverse of the determinant — never a
partial or inconsistent matrix. -/
theorem inverse_error_exact :
    (∀ (F : Type) [Field F] [DecidableEq F] (n : ℕ)
        (A : Matrix (Fin n) (Fin n) F),
        inverse n A = none ↔ determinant n A = 0) ∧
      (∀ (F : Type) [Field F] [DecidableEq F] (n : ℕ)
        (A : Matrix (Fin n) (Fin n) F),
        determinant n A ≠ 0 →
          inverse n A =
            some ((determinant n A)⁻¹ • (cofactors n A).transpose)) := by
  constructor
  · intro F _ _ n A
    rw [inverse]
    split <;> simp_all
  · intro F _ _ n A h
    rw [inverse, if_neg h]

/-- Witness for C4: on the concrete nonsingular matrix [[1,2],[3,4]]
over Z_11, `inverse` returns exactly the adjugate formula. -/
theorem inverse_error_exact_witness :
    inverse 2 (!![1, 2; 3, 4] : Matrix (Fin 2) (Fin 2) (ZMod 11)) =
      some ((determinant 2 (!![1, 2; 3, 4] : Matrix (Fin 2) (Fin 2) (ZMod 11)))⁻¹ •
        (cofactors 2 (!![1, 2; 3, 4] : Matrix (Fin 2) (Fin 2) (ZMod 11))).transpose) :=
  inverse_error_exact.2 (ZMod 11) 2 !![1, 2; 3, 4] (by decide)

/-- C5: `determinant` computes the exact recursive cofactor
expansion in the field (it equals the mathematical determinant; for
N=1 it returns the sole element, for N=2 it returns ad−bc, and for
N≥3 it expands along row 0 with alternating sign, recursing into
the minors obtained by deleting row 0 and each column), and the
determinant of [[1,2],[3,4]] over the decaf377 field is −2 mod p. -/
theorem determinant_expansion :
    (∀ (F : Type) [CommRing F] (n : ℕ) (A : Matrix (Fin n) (Fin n) F),
        determinant n A = A.det) ∧
      (∀ (F : Type) [CommRing F] (A : Matrix (Fin 1) (Fin 1) F),
        determinant 1 A = A 0 0) ∧
      (∀ (F : Type) [CommRing F] (A : Matrix (Fin 2) (Fin 2) F),
        determinant 2 A = A 0 0 * A 1 1 - A 0 1 * A 1 0) ∧
      (∀ (F : Type) [CommRing F] (n : ℕ) (A : Matrix (Fin (n+3)) (Fin (n+3)) F),
        determinant (n+3) A =
          ∑ j : Fin (n+3), (-1 : F) ^ (j : ℕ) * A 0 j *
            determinant (n+2) (A.submatrix Fin.succ j.succAbove)) ∧
      determinant 2 (!![1, 2; 3, 4] : Matrix (Fin 2) (Fin 2) (ZMod fqPrime)) = -2 :=
  ⟨fun F _ n A => determinant_eq_det n A,
   fun F _ A => by rw [determinant],
   fun F _ A => by rw [determinant],
   fun F _ n A => by rw [determinant],
   by decide⟩

section DynamicMatrix

/-- The dynamically-sized matrix of poseidon-paramgen.  Its base
operations live in `matrix/base.rs`, absent from the sources;
the data model is taken from the spec: a row-major sequence of
elements with fixed dimensions (linear index = row·C + col). -/
structure PMatrix (F : Type) where
  n_rows : ℕ
  n_cols : ℕ
  elements : List F

/-- Modelled from the spec: `Matrix::new(rows, cols, elements)`
(`matrix/base.rs` is absent).  The `DimensionError` raised when
`elements.length ≠ rows·cols` is captured by the separate
well-formedness predicate `PMatrix.wf`. -/
def PMatrix.new {F : Type} (rows cols : ℕ) (elements : List F) : PMatrix F :=
  ⟨rows, cols, elements⟩

/-- The construction-time invariant of `Matrix::new`:
the element count equals rows·cols. -/
def PMatrix.wf {F : Type} (m : PMatrix F) : Prop :=
  m.elements.length = m.n_rows * m.n_cols

/-- Modelled from the spec: row-major element access
(`matrix/base.rs` is absent).  Out-of-range access is an
`IndexError` in the source; here it yields 0 so that all in-range
uses coincide with the source. -/
def PMatrix.get_element {F : Type} [Zero F] (m : PMatrix F) (i j : ℕ) : F :=
  m.elements.getD (i * m.n_cols + j) 0

/-- Row `i` of a matrix, as read row-major through `get_element`. -/
def PMatrix.row {F : Type} [Zero F] (m : PMatrix F) (i : ℕ) : List F :=
  (List.range m.n_cols).map fun j => m.get_element i j

/-- Column `j` of a matrix, as read through `get_element`. -/
def PMatrix.col {F : Type} [Zero F] (m : PMatrix F) (j : ℕ) : List F :=
  (List.range m.n_rows).map fun i => m.get_element i j

/-- From the source (`matrix.rs`): flatten a vec of vecs. -/
def flatten {F : Type} : List (List F) → List F
  | [] => []
  | l :: ls => l ++ flatten ls

/-- From the source (`matrix.rs`): `rows()` — the list of rows. -/
def PMatrix.rows {F : Type} [Zero F] (m : PMatrix F) : List (List F) :=
  (List.range m.n_rows).map fun i => m.row i

/-- Modelled from the spec: `transpose()` (`matrix/base.rs` is
absent) — always succeeds, swaps the dimensions and maps element
(i,j) to (j,i). -/
def PMatrix.transpose {F : Type} [Zero F] (m : PMatrix F) : PMatrix F :=
  PMatrix.new m.n_cols m.n_rows
    (flatten ((List.range m.n_cols).map fun i =>
      (List.range m.n_rows).map fun j => m.get_element j i))

/-- From the source (`matrix.rs`): `dot_product` — panics
("vecs not same len", modelled as `none`) when the lengths differ,
otherwise sums the element-wise products. -/
def dot_product {F : Type} [CommRing F] (a b : List F) : Option F :=
  if a.length ≠ b.length then none
  else some (((a.zip b).map fun xy => xy.1 * xy.2).sum)

/-- The value `dot_product` computes when its length guard passes
(the guard always holds for operands produced internally). -/
def dotp {F : Type} [CommRing F] (a b : List F) : F :=
  ((a.zip b).map fun xy => xy.1 * xy.2).sum

/-- From the source (`matrix.rs`): `mat_mul` — errors when the
inner dimensions disagree, otherwise maps the rows of `lhs` over
the rows of the transposed `rhs` (the columns of `rhs`), taking dot
products, and flattens the result into a (lhs.rows × rhs.cols)
matrix. -/
def mat_mul {F : Type} [CommRing F] (lhs rhs : PMatrix F) :
    Except String (PMatrix F) :=
  if lhs.n_cols ≠ rhs.n_rows then
    Except.error "matrix dimensions do not allow matrix multiplication"
  else
    Except.ok (PMatrix.new lhs.n_rows rhs.n_cols
      (flatten (lhs.rows.map fun r =>
        rhs.transpose.rows.map fun c => dotp r c)))

end DynamicMatrix

section ListLemmas

/-- Reading at linear index i·c + j inside a flattened list of
lists, all of length c, reads entry j of inner list i. -/
theorem flatten_getD {F : Type} [Zero F] :
    ∀ (L : List (List F)) (c : ℕ), (∀ l ∈ L, l.length = c) →
      ∀ (i j : ℕ), i < L.length → j < c →
        (flatten L).getD (i * c + j) 0 = (L.getD i []).getD j 0
  | [], _, _, i, _, hi, _ => absurd hi (by simp)
  | l :: ls, c, hL, 0, j, _, hj => by
      have hl : l.length = c := hL l (List.mem_cons_self l ls)
      rw [flatten, Nat.zero_mul, Nat.zero_add,
        List.getD_append _ _ _ _ (by rw [hl]; exact hj)]
      rfl
  | l :: ls, c, hL, i + 1, j, hi, hj => by
      have hl : l.length = c := hL l (List.mem_cons_self l ls)
      have harith : (i + 1) * c + j = l.length + (i * c + j) := by
        rw [hl]; ring
      rw [flatten, harith, List.getD_append_right _ _ _ _ (Nat.le_add_right _ _),
        Nat.add_sub_cancel_left]
      exact flatten_getD ls c (fun x hx => hL x (List.mem_cons_of_mem l hx)) i j
        (Nat.lt_of_succ_lt_succ (by simpa using hi)) hj

/-- Reading a mapped range at an in-range index. -/
theorem getD_map_range {F : Type} (f : ℕ → F) (n i : ℕ) (h : i < n) (d : F) :
    ((List.range n).map f).getD i d = f i := by
  rw [List.getD_eq_getElem _ d (by simpa using h)]
  simp

/-- Reading a mapped list at an in-range index. -/
theorem getD_map {α β : Type} (f : α → β) (xs : List α) (n : ℕ)
    (h : n < xs.length) (d : α) (d' : β) :
    (xs.map f).getD n d' = f (xs.getD n d) := by
  rw [List.getD_eq_getElem _ d' (by simpa using h), List.getD_eq_getElem _ d h]
  simp

/-- Mapping multiplication over a zip is `zipWith` multiplication. -/
theorem zip_map_mul {F : Type} [CommRing F] :
    ∀ a b : List F,
      (a.zip b).map (fun xy => xy.1 * xy.2) = List.zipWith (· * ·) a b
  | [], _ => by simp
  | _ :: _, [] => by simp
  | x :: xs, y :: ys => by
      simpa using zip_map_mul xs ys

end ListLemmas

/-- Transposition maps element (i,j) to (j,i), for in-range indices. -/
theorem PMatrix.transpose_get {F : Type} [Zero F] (m : PMatrix F) (i j : ℕ)
    (hi : i < m.n_cols) (hj : j < m.n_rows) :
    m.transpose.get_element i j = m.get_element j i := by
  show (flatten ((List.range m.n_cols).map fun a =>
      (List.range m.n_rows).map fun b => m.get_element b a)).getD
        (i * m.n_rows + j) 0 = m.get_element j i
  rw [flatten_getD _ m.n_rows (by
      intro l hl
      obtain ⟨a, _, rfl⟩ := List.mem_map.mp hl
      simp) i j (by simpa using hi) hj]
  rw [getD_map_range _ _ _ hi, getD_map_range _ _ _ hj]

/-- Rows of the transpose are the columns of the original matrix,
for in-range row indices. -/
theorem PMatrix.transpose_row_eq_col {F : Type} [Zero F] (m : PMatrix F)
    (j : ℕ) (hj : j < m.n_cols) :
    m.transpose.row j = m.col j := by
  show ((List.range m.transpose.n_cols).map fun k => m.transpose.get_element j k)
      = (List.range m.n_rows).map fun i => m.get_element i j
  have hc : m.transpose.n_cols = m.n_rows := rfl
  rw [hc]
  exact List.map_congr_left fun k hk =>
    m.transpose_get j k hj (List.mem_range.mp hk)

/-- C8: `mat_mul(lhs, rhs)` fails with a `DimensionError` exactly
when `lhs.n_cols ≠ rhs.n_rows`; when it succeeds, the result has
shape (lhs.n_rows, rhs.n_cols) and each in-range entry (i,j) is the
dot product of row i of `lhs` with column j of `rhs` (and the
`dot_product` length guard holds there). -/
theorem mat_mul_spec :
    (∀ (F : Type) [CommRing F] (lhs rhs : PMatrix F),
        (∃ e, mat_mul lhs rhs = Except.error e) ↔ lhs.n_cols ≠ rhs.n_rows) ∧
      (∀ (F : Type) [CommRing F] (lhs rhs m : PMatrix F),
        mat_mul lhs rhs = Except.ok m →
          m.n_rows = lhs.n_rows ∧ m.n_cols = rhs.n_cols ∧
            ∀ i j : ℕ, i < lhs.n_rows → j < rhs.n_cols →
              dot_product (lhs.row i) (rhs.col j) = some (m.get_element i j)) := by
  constructor
  · intro F _ lhs rhs
    rw [mat_mul]
    split <;> simp_all
  · intro F _ lhs rhs m h
    rw [mat_mul] at h
    split at h
    · exact absurd h (by simp)
    next hdim =>
      have hdim' : lhs.n_cols = rhs.n_rows := not_ne_iff.mp hdim
      obtain rfl : PMatrix.new lhs.n_rows rhs.n_cols
          (flatten (lhs.rows.map fun r =>
            rhs.transpose.rows.map fun c => dotp r c)) = m := by
        simpa using h
      refine ⟨rfl, rfl, fun i j hi hj => ?_⟩
      have hrows : ∀ (mm : PMatrix F) (k : ℕ), k < mm.n_rows →
          mm.rows.getD k [] = mm.row k := fun mm k hk =>
        getD_map_range _ _ _ hk []
      have hlenrows : ∀ mm : PMatrix F, mm.rows.length = mm.n_rows := by
        intro mm
        simp [PMatrix.rows]
      have htrows : rhs.transpose.n_rows = rhs.n_cols := rfl
      have hentry :
          (PMatrix.new lhs.n_rows rhs.n_cols
            (flatten (lhs.rows.map fun r =>
              rhs.transpose.rows.map fun c => dotp r c))).get_element i j
            = dotp (lhs.row i) (rhs.col j) := by
        show (flatten (lhs.rows.map fun r =>
            rhs.transpose.rows.map fun c => dotp r c)).getD
              (i * rhs.n_cols + j) 0 = dotp (lhs.row i) (rhs.col j)
        rw [flatten_getD _ rhs.n_cols (by
            intro l hl
            obtain ⟨r, _, rfl⟩ := List.mem_map.mp hl
            simp [hlenrows, htrows]) i j
          (by simpa [hlenrows] using hi) hj]
        rw [getD_map _ _ _ (by simpa [hlenrows] using hi) []]
        rw [hrows lhs i hi]
        rw [getD_map _ _ _ (by simpa [hlenrows, htrows] using hj) []]
        rw [hrows rhs.transpose j (htrows ▸ hj)]
        rw [rhs.transpose_row_eq_col j hj]
      rw [hentry, dot_product,
        if_neg (not_not_intro (by simp [PMatrix.row, PMatrix.col, hdim']))]
      rfl

/-- Witness for C8: a 3×2 by 3×2 product fails the dimension check,
and the 1×2 by 2×1 product over Z_11 yields the dot product of the
lhs row with the rhs column. -/
theorem mat_mul_spec_witness :
    (∃ e, mat_mul (PMatrix.mk 3 2 ([1, 2, 3, 4, 5, 6] : List (ZMod 11)))
        (PMatrix.mk 3 2 [1, 2, 3, 4, 5, 6]) = Except.error e) ∧
      dot_product ((PMatrix.mk 1 2 ([1, 2] : List (ZMod 11))).row 0)
          ((PMatrix.mk 2 1 ([3, 4] : List (ZMod 11))).col 0)
        = some ((PMatrix.mk 1 1 ([0] : List (ZMod 11))).get_element 0 0) :=
  ⟨(mat_mul_spec.1 (ZMod 11) (PMatrix.mk 3 2 [1, 2, 3, 4, 5, 6])
      (PMatrix.mk 3 2 [1, 2, 3, 4, 5, 6])).mpr (by decide),
   (mat_mul_spec.2 (ZMod 11) (PMatrix.mk 1 2 [1, 2]) (PMatrix.mk 2 1 [3, 4])
      (PMatrix.mk 1 1 [0]) (by rfl)).2.2 0 0 (by decide) (by decide)⟩

/-- C9: `dot_product(a, b)` is a fatal precondition violation — a
panic, modelled by `none` — exactly when the lengths differ; for
equal-length vectors it returns the sum of the element-wise field
products. -/
theorem dot_product_spec :
    (∀ (F : Type) [CommRing F] (a b : List F),
        dot_product a b = none ↔ a.length ≠ b.length) ∧
      (∀ (F : Type) [CommRing F] (a b : List F), a.length = b.length →
        dot_product a b = some ((List.zipWith (· * ·) a b).sum)) := by
  constructor
  · intro F _ a b
    rw [dot_product]
    split <;> simp_all
  · intro F _ a b h
    rw [dot_product, if_neg (not_not_intro h), zip_map_mul]

/-- Witness for C9: concrete equal-length and unequal-length pairs
over Z_11. -/
theorem dot_product_spec_witness :
    dot_product ([1, 2] : List (ZMod 11)) [3, 4]
        = some ((List.zipWith (· * ·) ([1, 2] : List (ZMod 11)) [3, 4]).sum) ∧
      dot_product ([1] : List (ZMod 11)) [] = none :=
  ⟨dot_product_spec.2 (ZMod 11) [1, 2] [3, 4] rfl,
   (dot_product_spec.1 (ZMod 11) [1] []).mpr (by decide)⟩

section RoundConstants

/-- Modelled from the spec: `InputParameters` (poseidon-paramgen
`input.rs` is absent) — the immutable instance configuration:
security target `M` in bits, state width `t`, and the field
identity given by the modulus `p`. -/
structure InputParameters where
  M : ℕ
  t : ℕ
  p : ℕ
deriving DecidableEq

/-- Modelled from the spec: `RoundNumbers` (poseidon-paramgen
`rounds.rs` is absent) — the full-round and partial-round counts. -/
structure RoundNumbers where
  r_F : ℕ
  r_P : ℕ
deriving DecidableEq

/-- Modelled from the spec: `RoundNumbers::total()` — the total
number of rounds, full plus partial. -/
def RoundNumbers.total (rn : RoundNumbers) : ℕ :=
  rn.r_F + rn.r_P

/-- Modelled from the spec: `Alpha` (poseidon-paramgen `alpha.rs`
is absent) — the S-box exponent, either a small exponent or the
inverse S-box. -/
inductive Alpha where
  | exponent : ℕ → Alpha
  | inv : Alpha
deriving DecidableEq

/-- The state of the merlin transcript once `domain_sep` has
absorbed the protocol label and the full parameter triple, before
any output is drawn.  The merlin crate itself is an external
dependency; its transcript is deterministic, so the seeded state is
a function of exactly this data. -/
structure TranscriptSeed where
  label : String
  input : InputParameters
  rounds : RoundNumbers
  alpha : Alpha
deriving DecidableEq

/-- From the source (`round_constants.rs`): the transcript is
created with the protocol label `"round-constants"` and then
domain-separated over the input parameters, round numbers and
alpha, in that fixed order, before any constant is drawn. -/
def domainSep (input : InputParameters) (rounds : RoundNumbers)
    (alpha : Alpha) : TranscriptSeed :=
  ⟨"round-constants", input, rounds, alpha⟩

/-- From the source (`round_constants.rs`): the matrix of additive
round constants. -/
structure ArcMatrixP (F : Type) where
  mat : PMatrix F

/-- From the source (`round_constants.rs`): `ArcMatrix::generate` —
seeds a fresh transcript from the parameter triple, then draws
`total_rounds · t` field elements in sequence into a
(total_rounds × t) matrix.  The deterministic element stream of the
seeded merlin transcript (`transcript.round_constant()`) is
abstracted as the function `draw` from the seeded state and the
draw index to the element produced. -/
def ArcMatrixP.generate (F : Type) (draw : TranscriptSeed → ℕ → F)
    (input : InputParameters) (round_numbers : RoundNumbers)
    (alpha : Alpha) : ArcMatrixP F :=
  let seed := domainSep input round_numbers alpha
  let num_total_rounds := round_numbers.total
  ⟨PMatrix.new num_total_rounds input.t
    ((List.range (num_total_rounds * input.t)).map fun k => draw seed k)⟩

end RoundConstants

/-- C6: `ArcMatrix::generate` is a pure function of its arguments:
for any fixed deterministic transcript stream, two calls with
identical input parameters, round numbers and alpha produce an
identical ArcMatrix. -/
theorem generate_deterministic (F : Type) (draw : TranscriptSeed → ℕ → F)
    (i₁ i₂ : InputParameters) (r₁ r₂ : RoundNumbers) (a₁ a₂ : Alpha)
    (hi : i₁ = i₂) (hr : r₁ = r₂) (ha : a₁ = a₂) :
    ArcMatrixP.generate F draw i₁ r₁ a₁ = ArcMatrixP.generate F draw i₂ r₂ a₂ := by
  subst hi hr ha
  rfl

/-- Witness for C6: two generations at an identical concrete
configuration coincide. -/
theorem generate_deterministic_witness :
    ArcMatrixP.generate (ZMod 11) (fun _ k => (k : ZMod 11))
        ⟨128, 2, 11⟩ ⟨8, 31⟩ (Alpha.exponent 17) =
      ArcMatrixP.generate (ZMod 11) (fun _ k => (k : ZMod 11))
        ⟨128, 2, 11⟩ ⟨8, 31⟩ (Alpha.exponent 17) :=
  generate_deterministic (ZMod 11) (fun _ k => (k : ZMod 11))
    ⟨128, 2, 11⟩ ⟨128, 2, 11⟩ ⟨8, 31⟩ ⟨8, 31⟩
    (Alpha.exponent 17) (Alpha.exponent 17) rfl rfl rfl

/-- C7: the ArcMatrix produced by `generate` has exactly
`r_F + r_P` rows and `t` columns — `(r_F + r_P) · t` elements in
total — and row r holds the additive constants for permutation
round r, drawn in order with round 0 first: in-range entry (r, j)
is the `(r·t + j)`-th element of the seeded transcript stream. -/
theorem generate_shape (F : Type) [Zero F] (draw : TranscriptSeed → ℕ → F)
    (input : InputParameters) (rounds : RoundNumbers) (alpha : Alpha)
    (r j : ℕ) (hr : r < rounds.r_F + rounds.r_P) (hj : j < input.t) :
    (ArcMatrixP.generate F draw input rounds alpha).mat.n_rows
        = rounds.r_F + rounds.r_P ∧
      (ArcMatrixP.generate F draw input rounds alpha).mat.n_cols = input.t ∧
      (ArcMatrixP.generate F draw input rounds alpha).mat.elements.length
        = (rounds.r_F + rounds.r_P) * input.t ∧
      (ArcMatrixP.generate F draw input rounds alpha).mat.get_element r j
        = draw (domainSep input rounds alpha) (r * input.t + j) := by
  refine ⟨rfl, rfl,
    by simp [ArcMatrixP.generate, PMatrix.new, RoundNumbers.total], ?_⟩
  show ((List.range (rounds.total * input.t)).map fun k =>
      draw (domainSep input rounds alpha) k).getD (r * input.t + j) 0
    = draw (domainSep input rounds alpha) (r * input.t + j)
  refine getD_map_range _ _ _ ?_ 0
  calc r * input.t + j < r * input.t + input.t := by omega
    _ = (r + 1) * input.t := by ring
    _ ≤ (rounds.r_F + rounds.r_P) * input.t :=
        Nat.mul_le_mul_right _ hr

/-- Witness for C7: the concrete shape and layout of a generated
matrix with 3 total rounds and state width 2 over Z_11. -/
theorem generate_shape_witness :
    (ArcMatrixP.generate (ZMod 11) (fun _ k => (k : ZMod 11))
        ⟨128, 2, 11⟩ ⟨2, 1⟩ (Alpha.exponent 17)).mat.n_rows = 2 + 1 ∧
      (ArcMatrixP.generate (ZMod 11) (fun _ k => (k : ZMod 11))
        ⟨128, 2, 11⟩ ⟨2, 1⟩ (Alpha.exponent 17)).mat.n_cols = 2 ∧
      (ArcMatrixP.generate (ZMod 11) (fun _ k => (k : ZMod 11))
        ⟨128, 2, 11⟩ ⟨2, 1⟩ (Alpha.exponent 17)).mat.elements.length = (2 + 1) * 2 ∧
      (ArcMatrixP.generate (ZMod 11) (fun _ k => (k : ZMod 11))
        ⟨128, 2, 11⟩ ⟨2, 1⟩ (Alpha.exponent 17)).mat.get_element 2 1
        = (fun _ k => (k : ZMod 11)) (domainSep ⟨128, 2, 11⟩ ⟨2, 1⟩ (Alpha.exponent 17))
            (2 * 2 + 1) :=
  generate_shape (ZMod 11) (fun _ k => (k : ZMod 11))
    ⟨128, 2, 11⟩ ⟨2, 1⟩ (Alpha.exponent 17) 2 1 (by decide) (by decide)

section ConstGeneric

/-- Modelled from the spec: the const-generic fixed-size matrix of
poseidon-parameters (its `matrix.rs` is absent) — `N_ELEMENTS`
elements backing an `N_ROWS × N_COLS` shape; the reported runtime
dimensions are the const parameters themselves. -/
structure CMatrix (F : Type) (N_ROWS N_COLS N_ELEMENTS : ℕ) where
  elements : Fin N_ELEMENTS → F

/-- The runtime row count of a const-generic matrix: the const
parameter `N_ROWS`. -/
def CMatrix.n_rows {F : Type} {R C E : ℕ} (_ : CMatrix F R C E) : ℕ := R

/-- The runtime column count of a const-generic matrix: the const
parameter `N_COLS`. -/
def CMatrix.n_cols {F : Type} {R C E : ℕ} (_ : CMatrix F R C E) : ℕ := C

/-- Modelled from the spec: `hadamard_product` on the const-generic
matrix — fails with a `DimensionError` unless the reported shapes
match exactly, otherwise returns the element-wise product. -/
def CMatrix.hadamard_product {F : Type} [Mul F] {R C E : ℕ}
    (a b : CMatrix F R C E) : Except String (CMatrix F R C E) :=
  if a.n_rows = b.n_rows ∧ a.n_cols = b.n_cols then
    Except.ok ⟨fun k => a.elements k * b.elements k⟩
  else
    Except.error "matrix dimension mismatch"

/-- From the source (`arc_matrix.rs`): the const-generic ArcMatrix
wrapper. -/
structure ArcMatrixC (F : Type) (R C E : ℕ) where
  inner : CMatrix F R C E

/-- From the source (`arc_matrix.rs` lines 57–63):
`ArcMatrix::hadamard_product` delegates to the inner matrix and
re-wraps, propagating any error. -/
def ArcMatrixC.hadamard_product {F : Type} [Mul F] {R C E : ℕ}
    (a b : ArcMatrixC F R C E) : Except String (ArcMatrixC F R C E) :=
  match CMatrix.hadamard_product a.inner b.inner with
  | Except.ok m => Except.ok ⟨m⟩
  | Except.error e => Except.error e

/-- From the source (`arc_matrix.rs`): the const-generic
OptimizedArcMatrix wrapper around an ArcMatrix. -/
structure OptimizedArcMatrixC (F : Type) (R C E : ℕ) where
  inner : ArcMatrixC F R C E

/-- From the source (`arc_matrix.rs` lines 119–125):
`OptimizedArcMatrix::hadamard_product` delegates to the inner
ArcMatrix and re-wraps, propagating any error. -/
def OptimizedArcMatrixC.hadamard_product {F : Type} [Mul F] {R C E : ℕ}
    (a b : OptimizedArcMatrixC F R C E) :
    Except String (OptimizedArcMatrixC F R C E) :=
  match ArcMatrixC.hadamard_product a.inner b.inner with
  | Except.ok m => Except.ok ⟨m⟩
  | Except.error e => Except.error e

end ConstGeneric

/-- C10: for the const-generic ArcMatrix and OptimizedArcMatrix
types, `hadamard_product` applied to two values of the same type
always returns Ok with the element-wise product — the
dimension-mismatch branch is unreachable because equal const
parameters force identical reported shapes. -/
theorem hadamard_product_always_ok (F : Type) [Mul F] (R C E : ℕ)
    (a b : ArcMatrixC F R C E) (x y : OptimizedArcMatrixC F R C E) :
    ArcMatrixC.hadamard_product a b
        = Except.ok ⟨⟨fun k => a.inner.elements k * b.inner.elements k⟩⟩ ∧
      OptimizedArcMatrixC.hadamard_product x y
        = Except.ok ⟨⟨⟨fun k =>
            x.inner.inner.elements k * y.inner.inner.elements k⟩⟩⟩ := by
  have hC : ∀ (u v : CMatrix F R C E), CMatrix.hadamard_product u v
      = Except.ok ⟨fun k => u.elements k * v.elements k⟩ := by
    intro u v
    rw [CMatrix.hadamard_product, if_pos ⟨rfl, rfl⟩]
  have hA : ∀ (u v : ArcMatrixC F R C E), ArcMatrixC.hadamard_product u v
      = Except.ok ⟨⟨fun k => u.inner.elements k * v.inner.elements k⟩⟩ := by
    intro u v
    rw [ArcMatrixC.hadamard_product, hC]
  constructor
  · exact hA a b
  · rw [OptimizedArcMatrixC.hadamard_product, hA]

section Permutation

variable {F : Type} [CommRing F] {t : ℕ}

/-- The full-round S-box layer: every coordinate is raised to the
S-box exponent α. -/
def sboxFull (α : ℕ) (s : Fin (t+1) → F) : Fin (t+1) → F :=
  fun i => s i ^ α

/-- The partial-round S-box layer: only coordinate 0 is raised to
α, as in the reference `poseidonperm_x3_64_24_optimized.sage`
algorithm cited by `arc_matrix.rs`. -/
def sbox0 (α : ℕ) (s : Fin (t+1) → F) : Fin (t+1) → F :=
  Function.update s 0 (s 0 ^ α)

/-- The vector holding coordinate 0 of `u` and zero elsewhere. -/
def headVec (u : Fin (t+1) → F) : Fin (t+1) → F :=
  fun j => if j = 0 then u 0 else 0

/-- The vector `u` with coordinate 0 zeroed. -/
def tailVec (u : Fin (t+1) → F) : Fin (t+1) → F :=
  Function.update u 0 0

/-- Modelled from the spec: `k` successive full rounds starting at
round index `i` — add the round's constant row, apply the full
S-box, multiply by the mixing matrix. -/
def fullRounds (M : Matrix (Fin (t+1)) (Fin (t+1)) F) (α : ℕ)
    (C : ℕ → Fin (t+1) → F) : ℕ → ℕ → (Fin (t+1) → F) → (Fin (t+1) → F)
  | _, 0, s => s
  | i, k+1, s => fullRounds M α C (i+1) k (M.mulVec (sboxFull α (s + C i)))

/-- Modelled from the spec: `k` successive partial rounds of the
un-optimized schedule starting at round index `i` — add the
round's constant row, apply the partial S-box, multiply by the
mixing matrix. -/
def midRounds (M : Matrix (Fin (t+1)) (Fin (t+1)) F) (α : ℕ)
    (C : ℕ → Fin (t+1) → F) : ℕ → ℕ → (Fin (t+1) → F) → (Fin (t+1) → F)
  | _, 0, s => s
  | i, k+1, s => midRounds M α C (i+1) k (M.mulVec (sbox0 α (s + C i)))

/-- Modelled from the spec: `k` successive partial rounds of the
optimized schedule starting at round index `i` — apply the partial
S-box, add coordinate 0 of the next transformed constant row
(except in the last partial round, which adds nothing), multiply
by the mixing matrix; the full constant vector for the partial
region was injected once before this phase. -/
def midRoundsOpt (M : Matrix (Fin (t+1)) (Fin (t+1)) F) (α : ℕ)
    (C : ℕ → Fin (t+1) → F) : ℕ → ℕ → (Fin (t+1) → F) → (Fin (t+1) → F)
  | _, 0, s => s
  | i, 1, s => midRoundsOpt M α C (i+1) 0 (M.mulVec (sbox0 α s))
  | i, k+2, s => midRoundsOpt M α C (i+1) (k+1)
      (M.mulVec (sbox0 α s + headVec (C (i+1))))

/-- Modelled from the spec: one backward step of the
optimized-constant recurrence at row index `i` — left-multiply the
next row by the inverse of the mixing matrix, fold its tail
forward into row `i`, and leave only its head at row `i+1`
(`calc_equivalent_constants` of the cited sage algorithm). -/
def transformStep (Minv : Matrix (Fin (t+1)) (Fin (t+1)) F)
    (C : ℕ → Fin (t+1) → F) (i : ℕ) : ℕ → Fin (t+1) → F :=
  fun r =>
    if r = i then C i + tailVec (Minv.mulVec (C (i+1)))
    else if r = i+1 then headVec (Minv.mulVec (C (i+1)))
    else C r

/-- The backward fold of `transformStep` over row indices
`i + k - 1, …, i`, highest first. -/
def transformFold (Minv : Matrix (Fin (t+1)) (Fin (t+1)) F) :
    ℕ → ℕ → (ℕ → Fin (t+1) → F) → (ℕ → Fin (t+1) → F)
  | _, 0, C => C
  | i, k+1, C => transformFold Minv i k (transformStep Minv C (i + k))

/-- Modelled from the spec: the accumulated-constant backward
propagation through the partial-round region (rows
`r_f … r_f + r_p − 1`), processing rows `r_f + r_p − 2` down to
`r_f`. -/
def calcEquivalentConstants (Minv : Matrix (Fin (t+1)) (Fin (t+1)) F)
    (r_f r_p : ℕ) (C : ℕ → Fin (t+1) → F) : ℕ → Fin (t+1) → F :=
  transformFold Minv r_f (r_p - 1) C

/-- Modelled from the spec: the full un-optimized permutation
schedule — `r_f` full rounds (rows `0 … r_f−1`), `r_p` partial
rounds (rows `r_f … r_f+r_p−1`), `r_f` full rounds (rows
`r_f+r_p … 2·r_f+r_p−1`). -/
def permute (M : Matrix (Fin (t+1)) (Fin (t+1)) F) (α r_f r_p : ℕ)
    (C : ℕ → Fin (t+1) → F) (s : Fin (t+1) → F) : Fin (t+1) → F :=
  fullRounds M α C (r_f + r_p) r_f
    (midRounds M α C r_f r_p
      (fullRounds M α C 0 r_f s))

/-- Modelled from the spec: the optimized permutation schedule —
the same first `r_f` full rounds, then a single injection of the
combined constant row `r_f`, then the optimized partial rounds,
then the same trailing full rounds. -/
def permuteOpt (M : Matrix (Fin (t+1)) (Fin (t+1)) F) (α r_f r_p : ℕ)
    (C : ℕ → Fin (t+1) → F) (s : Fin (t+1) → F) : Fin (t+1) → F :=
  fullRounds M α C (r_f + r_p) r_f
    (midRoundsOpt M α C r_f r_p
      (fullRounds M α C 0 r_f s + C r_f))

/-- Modelled from the spec: `transform(arc, mixing_matrix, rounds)`
building the `OptimizedArcMatrix` — fails (with an
`InvalidMixingMatrixError`) when the mixing matrix is not
invertible, otherwise rewrites the partial-round constants by the
backward propagation. -/
def transform {F : Type} [Field F] [DecidableEq F] {t : ℕ}
    (mixing : Matrix (Fin (t+1)) (Fin (t+1)) F) (r_f r_p : ℕ)
    (arc : ℕ → Fin (t+1) → F) : Option (ℕ → Fin (t+1) → F) :=
  match inverse (t+1) mixing with
  | none => none
  | some Minv => some (calcEquivalentConstants Minv r_f r_p arc)

end Permutation

section EquivalenceProof

variable {F : Type} [CommRing F] {t : ℕ}

/-- The backward fold leaves rows below its start index unchanged. -/
theorem transformFold_lower (Minv : Matrix (Fin (t+1)) (Fin (t+1)) F) :
    ∀ (k i : ℕ) (C : ℕ → Fin (t+1) → F) (r : ℕ), r < i →
      transformFold Minv i k C r = C r
  | 0, _, _, _, _ => rfl
  | k+1, i, C, r, hr => by
      rw [transformFold,
        transformFold_lower Minv k i (transformStep Minv C (i + k)) r hr]
      simp only [transformStep]
      rw [if_neg (by omega), if_neg (by omega)]

/-- The backward fold over `k` steps from `i` leaves rows above
`i + k` unchanged. -/
theorem transformFold_upper (Minv : Matrix (Fin (t+1)) (Fin (t+1)) F) :
    ∀ (k i : ℕ) (C : ℕ → Fin (t+1) → F) (r : ℕ), i + k < r →
      transformFold Minv i k C r = C r
  | 0, _, _, _, _ => rfl
  | k+1, i, C, r, hr => by
      rw [transformFold,
        transformFold_upper Minv k i (transformStep Minv C (i + k)) r (by omega)]
      simp only [transformStep]
      rw [if_neg (by omega), if_neg (by omega)]

/-- Peeling the bottom (last-processed) step off the backward fold. -/
theorem transformFold_succ (Minv : Matrix (Fin (t+1)) (Fin (t+1)) F) :
    ∀ (k i : ℕ) (C : ℕ → Fin (t+1) → F),
      transformFold Minv i (k+1) C
        = transformStep Minv (transformFold Minv (i+1) k C) i
  | 0, i, C => by
      simp [transformFold]
  | k+1, i, C => by
      rw [transformFold,
        transformFold_succ Minv k i (transformStep Minv C (i + (k+1)))]
      conv_rhs => rw [transformFold]
      rw [show i + (k+1) = (i+1) + k from by omega]

/-- Full-round phases only read the constant rows they use. -/
theorem fullRounds_congr (M : Matrix (Fin (t+1)) (Fin (t+1)) F) (α : ℕ) :
    ∀ (k i : ℕ) (C C' : ℕ → Fin (t+1) → F) (s : Fin (t+1) → F),
      (∀ r, i ≤ r → r < i + k → C r = C' r) →
      fullRounds M α C i k s = fullRounds M α C' i k s
  | 0, _, _, _, _, _ => rfl
  | k+1, i, C, C', s, h => by
      rw [fullRounds, fullRounds, h i le_rfl (by omega)]
      exact fullRounds_congr M α k (i+1) C C'
        (M.mulVec (sboxFull α (s + C' i)))
        (fun r h1 h2 => h r (by omega) (by omega))

/-- The optimized partial phase starting at position `i` only reads
constant rows strictly above `i`. -/
theorem midRoundsOpt_congr (M : Matrix (Fin (t+1)) (Fin (t+1)) F) (α : ℕ) :
    ∀ (k i : ℕ) (C C' : ℕ → Fin (t+1) → F) (s : Fin (t+1) → F),
      (∀ r, i + 1 ≤ r → C r = C' r) →
      midRoundsOpt M α C i k s = midRoundsOpt M α C' i k s
  | 0, _, _, _, _, _ => rfl
  | 1, _, _, _, _, _ => rfl
  | k+2, i, C, C', s, h => by
      rw [midRoundsOpt, midRoundsOpt, h (i+1) le_rfl]
      exact midRoundsOpt_congr M α (k+1) (i+1) C C'
        (M.mulVec (sbox0 α s + headVec (C' (i+1))))
        (fun r hr => h r (by omega))

/-- Multiplying by `M` undoes multiplying by a right inverse of `M`. -/
theorem mulVec_cancel (M Minv : Matrix (Fin (t+1)) (Fin (t+1)) F)
    (h : M * Minv = 1) (x : Fin (t+1) → F) :
    M.mulVec (Minv.mulVec x) = x := by
  rw [Matrix.mulVec_mulVec, h, Matrix.one_mulVec]

/-- `headVec` is idempotent. -/
theorem headVec_headVec (u : Fin (t+1) → F) : headVec (headVec u) = headVec u := by
  funext j
  by_cases hj : j = 0 <;> simp [headVec, hj]

/-- The constant-shift identity for the partial S-box: adding a
vector after the partial S-box equals adding its tail before the
S-box and its head after, because the S-box only touches
coordinate 0. -/
theorem sbox0_shift (α : ℕ) (x u : Fin (t+1) → F) :
    sbox0 α x + u = sbox0 α (x + tailVec u) + headVec u := by
  funext j
  by_cases hj : j = 0
  · subst hj
    simp [sbox0, tailVec, headVec, Function.update_same]
  · simp [sbox0, tailVec, headVec, Function.update_noteq hj, hj]

/-- Adding a constant vector after a partial round equals adding
the tail of its preimage under the mixing matrix before the S-box
and the head after it. -/
theorem state_shift (M Minv : Matrix (Fin (t+1)) (Fin (t+1)) F)
    (hMR : M * Minv = 1) (α : ℕ) (x d : Fin (t+1) → F) :
    M.mulVec (sbox0 α x) + d
      = M.mulVec (sbox0 α (x + tailVec (Minv.mulVec d))
          + headVec (Minv.mulVec d)) := by
  conv_lhs => rw [← mulVec_cancel M Minv hMR d]
  rw [← Matrix.mulVec_add, sbox0_shift α x (Minv.mulVec d)]

/-- The heart of the optimized-schedule equivalence: running `k+1`
un-optimized partial rounds from index `i` equals injecting the
folded dense constant row `i` once and running `k+1` optimized
partial rounds against the transformed constants. -/
theorem mid_equiv (M Minv : Matrix (Fin (t+1)) (Fin (t+1)) F)
    (hMR : M * Minv = 1) (α : ℕ) :
    ∀ (k i : ℕ) (C : ℕ → Fin (t+1) → F) (s : Fin (t+1) → F),
      midRounds M α C i (k+1) s
        = midRoundsOpt M α (transformFold Minv i k C) i (k+1)
            (s + transformFold Minv i k C i)
  | 0, i, C, s => rfl
  | k+1, i, C, s => by
      rw [midRounds,
        mid_equiv M Minv hMR α k (i+1) C (M.mulVec (sbox0 α (s + C i)))]
      rw [transformFold_succ]
      have hTi : transformFold Minv (i+1) k C i = C i :=
        transformFold_lower Minv k (i+1) C i (Nat.lt_succ_self i)
      have hstep_i :
          transformStep Minv (transformFold Minv (i+1) k C) i i
            = C i + tailVec (Minv.mulVec (transformFold Minv (i+1) k C (i+1))) := by
        simp [transformStep, hTi]
      have hstep_i1 :
          transformStep Minv (transformFold Minv (i+1) k C) i (i+1)
            = headVec (Minv.mulVec (transformFold Minv (i+1) k C (i+1))) := by
        simp [transformStep]
      conv_rhs => rw [midRoundsOpt]
      rw [hstep_i, hstep_i1, headVec_headVec]
      rw [midRoundsOpt_congr M α (k+1) (i+1)
        (transformStep Minv (transformFold Minv (i+1) k C) i)
        (transformFold Minv (i+1) k C)
        (M.mulVec (sbox0 α (s + (C i + tailVec (Minv.mulVec
          (transformFold Minv (i+1) k C (i+1)))))
          + headVec (Minv.mulVec (transformFold Minv (i+1) k C (i+1)))))
        (fun r hr => by
          simp only [transformStep]
          rw [if_neg (by omega), if_neg (by omega)])]
      rw [state_shift M Minv hMR α (s + C i)
        (transformFold Minv (i+1) k C (i+1)), add_assoc]

/-- The optimized permutation schedule against the transformed
constants computes exactly the un-optimized permutation, for any
right-invertible mixing matrix and at least one partial round. -/
theorem permute_equivalence (M Minv : Matrix (Fin (t+1)) (Fin (t+1)) F)
    (hMR : M * Minv = 1) (α r_f r_p : ℕ) (hp : 0 < r_p)
    (C : ℕ → Fin (t+1) → F) (s : Fin (t+1) → F) :
    permuteOpt M α r_f r_p (calcEquivalentConstants Minv r_f r_p C) s
      = permute M α r_f r_p C s := by
  obtain ⟨m, rfl⟩ : ∃ m, r_p = m + 1 := ⟨r_p - 1, by omega⟩
  rw [permute, permuteOpt, calcEquivalentConstants,
    show m + 1 - 1 = m from rfl]
  have h1 : fullRounds M α (transformFold Minv r_f m C) 0 r_f s
      = fullRounds M α C 0 r_f s :=
    fullRounds_congr M α r_f 0 (transformFold Minv r_f m C) C s
      (fun r _ h2 => transformFold_lower Minv m r_f C r (by omega))
  have h3 : ∀ x, fullRounds M α (transformFold Minv r_f m C) (r_f + (m+1)) r_f x
      = fullRounds M α C (r_f + (m+1)) r_f x := fun x =>
    fullRounds_congr M α r_f (r_f + (m+1)) (transformFold Minv r_f m C) C x
      (fun r h1 _ => transformFold_upper Minv m r_f C r (by omega))
  rw [h1, h3, ← mid_equiv M Minv hMR α m r_f C (fullRounds M α C 0 r_f s)]

end EquivalenceProof

/-- C1: for every input state vector, simulating the permutation
with the optimized constant schedule (the `OptimizedArcMatrix`
produced by the backward-propagation transform) against the mixing
matrix yields exactly the same output vector as simulating it with
the unmodified ArcMatrix under the un-optimized round-by-round
schedule — an exact equality in the field, for every invertible
mixing matrix, every constant table, every S-box exponent, and any
positive number of partial rounds. -/
theorem optimized_schedule_equivalence (F : Type) [Field F] [DecidableEq F]
    (t r_f r_p α : ℕ) (hp : 0 < r_p)
    (M : Matrix (Fin (t+1)) (Fin (t+1)) F) (hM : determinant (t+1) M ≠ 0)
    (C : ℕ → Fin (t+1) → F) (s : Fin (t+1) → F) :
    ∃ T, transform M r_f r_p C = some T ∧
      permuteOpt M α r_f r_p T s = permute M α r_f r_p C s := by
  have hinv : inverse (t+1) M
      = some ((determinant (t+1) M)⁻¹ • (cofactors (t+1) M).transpose) := by
    rw [inverse, if_neg hM]
  have hMR : M * ((determinant (t+1) M)⁻¹ • (cofactors (t+1) M).transpose) = 1 :=
    (adjugate_formula_inverse t M hM).1
  refine ⟨calcEquivalentConstants
    ((determinant (t+1) M)⁻¹ • (cofactors (t+1) M).transpose) r_f r_p C, ?_, ?_⟩
  · rw [transform, hinv]
  · exact permute_equivalence M
      ((determinant (t+1) M)⁻¹ • (cofactors (t+1) M).transpose)
      hMR α r_f r_p hp C s

/-- Witness for C1: a concrete width-2 instance over Z_11 with one
full round on each side and two partial rounds, S-box exponent 3,
an invertible mixing matrix, and a concrete input state. -/
theorem optimized_schedule_equivalence_witness :
    ∃ T, transform (!![1, 2; 3, 4] : Matrix (Fin 2) (Fin 2) (ZMod 11)) 1 2
        (fun r j => ((r + (j : ℕ) : ℕ) : ZMod 11)) = some T ∧
      permuteOpt !![1, 2; 3, 4] 3 1 2 T ![5, 7]
        = permute !![1, 2; 3, 4] 3 1 2
            (fun r j => ((r + (j : ℕ) : ℕ) : ZMod 11)) ![5, 7] :=
  optimized_schedule_equivalence (ZMod 11) 1 1 2 3 (by decide)
    !![1, 2; 3, 4] (by decide)
    (fun r j => ((r + (j : ℕ) : ℕ) : ZMod 11)) ![5, 7]

end PoseidonVerify
